import Mathlib

/-!
Verification development for the persistent vector memory store
(`MemoryManager` in `web-history-extension/backend/memory.py`).

The store keeps a FAISS `IndexFlatL2` vector index in lockstep with a JSON
metadata list and a URL cache, persists all three to disk after mutations,
and answers nearest-neighbour queries.  We shallowly embed the store state
and its public operations (`add`, `add_with_embedding`, `retrieve`,
`search_by_embedding`, `get_stats`, `clear`, plus the private
`_save_index` / `_load_or_create_index`) as pure Lean functions.

Modelling conventions:
- embedding vectors are `List Int` (exact arithmetic in place of float32;
  squared Euclidean distances are then exact integers);
- the external embedding provider is an oracle parameter of type
  `Option Vec`: `none` models a provider failure (the Python call raising),
  `some v` a successful response;
- a Python function that can raise is embedded with an `Except Err`
  result; `.error e` means the call raised and, for the operations claims
  quantify over, no mutation had happened yet at the raise point;
- FAISS `IndexFlatL2.search` is modelled including its padding behaviour:
  when fewer than `k` vectors exist the label array is padded with `-1`
  (and a huge distance), and Python list indexing (which lets negative
  indices wrap around from the end) is modelled by `pyGet`;
- file persistence is modelled by an explicit `Files` record plus a write
  counter that increments whenever `_save_index` actually writes.
-/

deriving instance DecidableEq for Except

namespace WebMemory

/-- An embedding vector (float32 in the source, exact integers here). -/
abbrev Vec := List Int

/-- One stored metadata record: the fields of the dictionaries that
`add_with_embedding` appends to `self.metadata` that the specification
talks about.  `url`, `title`, `session_id` model optional dictionary keys
(`none` means the key is absent); `idx` models the `"index"` key that
`add_with_embedding` sets to the record's position. -/
structure Record where
  text : String
  url : Option String := none
  title : Option String := none
  session_id : Option String := none
  idx : Nat := 0
  deriving Repr, DecidableEq

/-- The FAISS `IndexFlatL2`: a fixed dimensionality and the stored vectors
in insertion order. -/
structure VectorIndex where
  dim : Nat
  vecs : List Vec
  deriving Repr, DecidableEq

/-- The three persisted artifacts: `faiss.index`, `metadata.json`,
`url_cache.json`.  `none` models an absent file. -/
structure Files where
  indexF : Option VectorIndex := none
  metaF : Option (List Record) := none
  cacheF : Option (List (String × String)) := none
  deriving Repr, DecidableEq

/-- The in-memory state of a `MemoryManager` plus its on-disk artifacts.
`writes` counts how many times a persistence write was actually performed
(it only ever grows; it lets theorems observe whether an operation
triggered a write). -/
structure State where
  index : Option VectorIndex
  metadata : List Record
  url_cache : List (String × String)
  files : Files
  writes : Nat := 0
  deriving Repr, DecidableEq

/-- The failure kinds the modelled operations can raise. -/
inductive Err where
  | embeddingFailed
  | noIndex
  | dimMismatch
  deriving Repr, DecidableEq

/-- Squared Euclidean distance, the metric of `IndexFlatL2`. -/
def sqL2 (a b : Vec) : Int :=
  ((a.zip b).map (fun p => (p.1 - p.2) ^ 2)).sum

/-- Ordering used to sort search hits: by distance, ties by position. -/
def hitLe (x y : Int × Nat) : Bool :=
  if x.1 = y.1 then decide (x.2 ≤ y.2) else decide (x.1 < y.1)

/-- Insert one scored hit into an already sorted list of hits. -/
def insertHit (x : Int × Nat) : List (Int × Nat) → List (Int × Nat)
  | [] => [x]
  | y :: ys => if hitLe x y then x :: y :: ys else y :: insertHit x ys

/-- Sort scored hits ascending by distance (insertion sort). -/
def sortHits : List (Int × Nat) → List (Int × Nat)
  | [] => []
  | x :: xs => insertHit x (sortHits xs)

/-- The sentinel distance FAISS reports for padded (missing) hits, in the
role of `FLT_MAX`. -/
def padDist : Int := 2 ^ 128

/-- FAISS `IndexFlatL2.search(query, k)`: `none` models the exception
raised on a query of the wrong dimensionality; otherwise the `k` smallest
(squared-distance, label) pairs in ascending order, padded with label `-1`
and a huge distance when fewer than `k` vectors are stored. -/
def faissSearch (idx : VectorIndex) (q : Vec) (k : Nat) : Option (List (Int × Int)) :=
  if q.length = idx.dim then
    let scored := (List.range idx.vecs.length).map
      (fun i => (sqL2 q (idx.vecs.getD i []), i))
    let top := ((sortHits scored).take k).map (fun p => (p.1, (p.2 : Int)))
    some (top ++ List.replicate (k - top.length) (padDist, -1))
  else none

/-- Python list indexing `l[i]` for a signed index: non-negative indices
are looked up directly, negative indices wrap around from the end, and an
out-of-bounds access gives `none` (an `IndexError` in the source). -/
def pyGet (l : List Record) (i : Int) : Option Record :=
  if 0 ≤ i then l[i.toNat]?
  else if (-i).toNat ≤ l.length then l[l.length - (-i).toNat]?
  else none

/-- The session-filter test of `retrieve`: `if session_filter and
memory_data.get("session_id") != session_filter: continue`.  A `none` or
empty-string filter is falsy in Python, so it skips nothing. -/
def sfSkip (sf : Option String) (m : Record) : Bool :=
  match sf with
  | none => false
  | some f => if f = "" then false else decide (m.session_id ≠ some f)

/-- The result-collection loop of `retrieve` over the searched labels:
labels at or beyond the metadata length are skipped, the rest are looked
up with Python indexing (`none` propagates the `IndexError`), and the
session filter drops non-matching records. -/
def retrieveLoop (ms : List Record) (sf : Option String) : List Int → Option (List Record)
  | [] => some []
  | i :: rest =>
    if (ms.length : Int) ≤ i then retrieveLoop ms sf rest
    else
      (pyGet ms i).bind (fun m =>
        if sfSkip sf m then retrieveLoop ms sf rest
        else (retrieveLoop ms sf rest).map (fun rs => m :: rs))

/-- `MemoryManager.retrieve(query, top_k, session_filter)`.  The `emb`
parameter is the embedding provider's response for the query text.  The
source wraps the whole body in `try/except Exception: return []`, so every
internal failure (provider failure, wrong query dimension, `IndexError`)
yields a normal `[]` return and the function never surfaces an error. -/
def retrieve (s : State) (emb : Option Vec) (k : Nat) (sf : Option String) :
    Except Err (List Record) :=
  match s.index with
  | none => .ok []
  | some idx =>
    if idx.vecs.isEmpty then .ok []
    else
      match emb with
      | none => .ok []
      | some q =>
        match faissSearch idx q k with
        | none => .ok []
        | some hits =>
          match retrieveLoop s.metadata sf (hits.map Prod.snd) with
          | none => .ok []
          | some rs => .ok rs

/-- `MemoryManager._save_index`: writes all three artifacts, but only when
the index exists and holds at least one vector. -/
def saveIndex (s : State) : State :=
  match s.index with
  | none => s
  | some idx =>
    if idx.vecs.isEmpty then s
    else
      { s with
        files := { indexF := some idx, metaF := some s.metadata, cacheF := some s.url_cache }
        writes := s.writes + 1 }

/-- Python dictionary assignment `self.url_cache[url] = now` on the
association-list model of the cache. -/
def cacheInsert (c : List (String × String)) (u v : String) : List (String × String) :=
  if c.any (fun p => p.1 == u) then c.map (fun p => if p.1 = u then (u, v) else p)
  else c ++ [(u, v)]

/-- `MemoryManager.add_with_embedding(text, embedding, metadata)`: an
exact-text duplicate returns normally without any mutation; otherwise the
vector is appended to the index, the metadata dictionary (with `"text"`
and `"index"` set) is appended, the URL cache is updated when the
metadata carries a truthy `url`, and `_save_index` persists everything.
`now` stands for `datetime.now().isoformat()`. -/
def addWithEmbedding (s : State) (text : String) (emb : Vec) (md : Record) (now : String) :
    Except Err State :=
  if s.metadata.any (fun m => m.text == text) then .ok s
  else
    match s.index with
    | none => .error .noIndex
    | some idx =>
      if emb.length = idx.dim then
        .ok (saveIndex
          { s with
            index := some { idx with vecs := idx.vecs ++ [emb] }
            metadata := s.metadata ++ [{ md with text := text, idx := s.metadata.length }]
            url_cache :=
              match md.url with
              | some u => if u = "" then s.url_cache else cacheInsert s.url_cache u now
              | none => s.url_cache })
      else .error .dimMismatch

/-- A `MemoryItem` as passed to `MemoryManager.add`: `item.dict()` carries
no `url` or `title` key, so only `text` and `session_id` (plus fields no
claim observes) matter here. -/
structure Item where
  text : String
  session_id : String
  deriving Repr, DecidableEq

/-- The metadata dictionary `item.dict()` of a `MemoryItem`. -/
def Item.toRecord (it : Item) : Record :=
  { text := it.text, url := none, title := none, session_id := some it.session_id, idx := 0 }

/-- `MemoryManager.add(item)`: embeds the text (a provider failure raises
before any mutation), delegates to `add_with_embedding`, then calls
`_save_index` a second time. -/
def add (s : State) (it : Item) (embRes : Option Vec) (now : String) : Except Err State :=
  match embRes with
  | none => .error .embeddingFailed
  | some emb =>
    match addWithEmbedding s it.text emb it.toRecord now with
    | .ok s1 => .ok (saveIndex s1)
    | .error e => .error e

/-- `MemoryManager.clear()`: resets the in-memory structures, deletes the
index file, writes empty metadata and cache files, then probes the
embedding provider once to learn the dimension of a fresh empty index.
`probe` is the provider's response; `none` (a provider failure) raises,
which is the unsuccessful case no claim quantifies over. -/
def clear (s : State) (probe : Option Vec) : Except Err State :=
  let s1 : State :=
    { index := none
      metadata := []
      url_cache := []
      files := { indexF := none, metaF := some [], cacheF := some [] }
      writes := s.writes + 2 }
  match probe with
  | none => .error .embeddingFailed
  | some v => .ok { s1 with index := some { dim := v.length, vecs := [] } }

/-- `MemoryManager._load_or_create_index`: when both the index file and
the metadata file exist they are read back (the cache file too when
present); otherwise one throwaway provider call determines the dimension
of a fresh empty index. -/
def load (s : State) (probe : Option Vec) : Except Err State :=
  match s.files.indexF, s.files.metaF with
  | some fidx, some fms =>
    .ok { s with
          index := some fidx
          metadata := fms
          url_cache :=
            match s.files.cacheF with
            | some c => c
            | none => s.url_cache }
  | _, _ =>
    match probe with
    | none => .error .embeddingFailed
    | some v =>
      .ok { s with
            index := some { dim := v.length, vecs := [] }
            metadata := []
            url_cache := [] }

/-- A `SearchResult` as built by `search_by_embedding` (the
`content_snippet` is a prefix of the text and carries no extra
information for the properties at stake, so it is not modelled). -/
structure SearchResult where
  url : String
  title : String
  score : ℚ
  chunk_id : Int
  deriving Repr, DecidableEq

/-- Build one `SearchResult` from a stored record and its hit. -/
def mkResult (m : Record) (d : Int) (i : Int) : SearchResult :=
  { url := m.url.getD "", title := m.title.getD "",
    score := 1 / (1 + (d : ℚ)), chunk_id := i }

/-- The result-collection loop of `search_by_embedding`, keeping for each
produced `SearchResult` the full text of its record (the source tracks
these texts in its `seen_texts` set); hits are kept only when the label is
below the metadata length and the text was not already returned. -/
def sbeLoop (ms : List Record) : List (Int × Int) → List String → Option (List (String × SearchResult))
  | [], _ => some []
  | (d, i) :: rest, seen =>
    if i < (ms.length : Int) then
      (pyGet ms i).bind (fun m =>
        if m.text ∈ seen then sbeLoop ms rest seen
        else (sbeLoop ms rest (m.text :: seen)).map (fun rs => (m.text, mkResult m d i) :: rs))
    else sbeLoop ms rest seen

/-- `MemoryManager.search_by_embedding(embedding, top_k)`: the body is
wrapped in `try/except Exception: return []`, so the call is total and
any internal failure yields `[]`. -/
def searchByEmbedding (s : State) (v : Vec) (k : Nat) : List SearchResult :=
  match s.index with
  | none => []
  | some idx =>
    if idx.vecs.isEmpty then []
    else
      match faissSearch idx v k with
      | none => []
      | some hits =>
        match sbeLoop s.metadata hits [] with
        | none => []
        | some prs => prs.map Prod.snd

/-- The dictionary returned by `get_stats`. -/
structure Stats where
  indexed_urls : Nat
  total_chunks : Nat
  index_size : Nat
  deriving Repr, DecidableEq

/-- Size in bytes of the persisted index blob (float32 payload). -/
def fileSize (b : VectorIndex) : Nat := 4 * b.dim * b.vecs.length

/-- The `unique_urls` accumulation loop of `get_stats`: records whose
dictionary carries a `url` key contribute it to a duplicate-free list. -/
def uniqueUrlsAux : List Record → List String → List String
  | [], acc => acc
  | m :: rest, acc =>
    match m.url with
    | some u => if u ∈ acc then uniqueUrlsAux rest acc else uniqueUrlsAux rest (acc ++ [u])
    | none => uniqueUrlsAux rest acc

/-- `MemoryManager.get_stats()`. -/
def getStats (s : State) : Stats :=
  { indexed_urls := (uniqueUrlsAux s.metadata []).length,
    total_chunks := s.metadata.length,
    index_size :=
      match s.files.indexF with
      | some b => fileSize b
      | none => 0 }

/-- The state of a freshly constructed `MemoryManager` in an empty
directory: no files on disk, an empty index whose dimension came from the
probe call. -/
def initState (probe : Vec) : State :=
  { index := some { dim := probe.length, vecs := [] }
    metadata := []
    url_cache := []
    files := { indexF := none, metaF := none, cacheF := none }
    writes := 0 }

/-- The store states produced by sequences of successful public
operations from an empty store (`clear` and `load` may re-enter). -/
inductive Reachable : State → Prop
  | init (probe : Vec) : Reachable (initState probe)
  | addOk {s s1 : State} (it : Item) (emb : Vec) (now : String) :
      Reachable s → add s it (some emb) now = .ok s1 → Reachable s1
  | addWithOk {s s1 : State} (text : String) (emb : Vec) (md : Record) (now : String) :
      Reachable s → addWithEmbedding s text emb md now = .ok s1 → Reachable s1
  | clearOk {s s1 : State} (probe : Vec) :
      Reachable s → clear s (some probe) = .ok s1 → Reachable s1
  | loadOk {s s1 : State} (probe : Option Vec) :
      Reachable s → load s probe = .ok s1 → Reachable s1

/-- Every record's `"index"` field equals its position in the list. -/
def AlignedRecords (ms : List Record) : Prop :=
  ∀ i (h : i < ms.length), (ms[i]).idx = i

/-- Well-formedness of the persisted artifacts: whenever an index file is
present, a matching metadata file and a cache file are present as well,
the two persisted structures are index-aligned, and the persisted vector
set is non-empty (`_save_index` only ever writes non-empty indexes). -/
def FilesAligned (fs : Files) : Prop :=
  ∀ fidx, fs.indexF = some fidx →
    ∃ fms c, fs.metaF = some fms ∧ fs.cacheF = some c ∧
      fidx.vecs.length = fms.length ∧ AlignedRecords fms ∧ fidx.vecs ≠ []

/-- The inductive invariant of reachable stores: the index exists and is
length-aligned with the metadata whose `"index"` fields equal their
positions; the persisted files are well-formed; a non-empty store has just
been persisted verbatim; an empty store has no persisted index file. -/
def Inv (s : State) : Prop :=
  ∃ idx, s.index = some idx ∧
    idx.vecs.length = s.metadata.length ∧
    AlignedRecords s.metadata ∧
    FilesAligned s.files ∧
    (idx.vecs ≠ [] →
      s.files = { indexF := some idx, metaF := some s.metadata, cacheF := some s.url_cache }) ∧
    (idx.vecs = [] → s.files.indexF = none ∧ s.metadata = [])

/-- A sample `MemoryItem` with text `"a"`. -/
def itemA : Item := { text := "a", session_id := "sx" }

/-- A sample `MemoryItem` with text `"b"`. -/
def itemB : Item := { text := "b", session_id := "sx" }

/-- The stored record produced by inserting `itemA` first. -/
def m1 : Record :=
  { text := "a", url := none, title := none, session_id := some "sx", idx := 0 }

/-- The stored record produced by inserting `itemB` second. -/
def m2 : Record :=
  { text := "b", url := none, title := none, session_id := some "sx", idx := 1 }

/-- The index after inserting the single vector `[1, 0]`. -/
def vi1 : VectorIndex := { dim := 2, vecs := [[1, 0]] }

/-- The index after inserting `[1, 0]` then `[0, 1]`. -/
def vi2 : VectorIndex := { dim := 2, vecs := [[1, 0], [0, 1]] }

/-- A freshly created two-dimensional store. -/
def ex0 : State := initState [0, 0]

/-- The store after `add ex0 itemA` with embedding `[1, 0]`
(`add` persists twice: once inside `add_with_embedding`, once itself). -/
def ex1 : State :=
  { index := some vi1
    metadata := [m1]
    url_cache := []
    files := { indexF := some vi1, metaF := some [m1], cacheF := some [] }
    writes := 2 }

/-- The store after further `add ex1 itemB` with embedding `[0, 1]`. -/
def ex2 : State :=
  { index := some vi2
    metadata := [m1, m2]
    url_cache := []
    files := { indexF := some vi2, metaF := some [m1, m2], cacheF := some [] }
    writes := 4 }

/-- A degenerate state whose index is `None` (as after a failed `clear`):
`search_by_embedding` must still answer `[]` on it. -/
def exNoIdx : State :=
  { index := none
    metadata := []
    url_cache := []
    files := { indexF := none, metaF := none, cacheF := none }
    writes := 0 }

/-- The state produced by a successful `clear` of `ex1` with a
two-dimensional probe. -/
def exC : State :=
  { index := some { dim := 2, vecs := [] }
    metadata := []
    url_cache := []
    files := { indexF := none, metaF := some [], cacheF := some [] }
    writes := 4 }

/-- `ex1` really is the result of one successful `add` on a fresh store. -/
theorem reach_ex1 : Reachable ex1 :=
  Reachable.addOk itemA [1, 0] "t0" (Reachable.init [0, 0]) (by decide)

/-- `ex2` is the result of a second successful `add` on `ex1`. -/
theorem reach_ex2 : Reachable ex2 :=
  Reachable.addOk itemB [0, 1] "t1" reach_ex1 (by decide)

/-- `_save_index` never changes the in-memory structures, only the files
and the write counter. -/
theorem saveIndex_memory (s : State) :
    (saveIndex s).index = s.index ∧ (saveIndex s).metadata = s.metadata ∧
    (saveIndex s).url_cache = s.url_cache := by
  unfold saveIndex
  cases h : s.index with
  | none => simp [h]
  | some idx => by_cases hv : idx.vecs.isEmpty <;> simp [hv, h]

/-- The retrieval loop treats an empty-string session filter exactly like
an absent one. -/
theorem retrieveLoop_some_empty (ms : List Record) (l : List Int) :
    retrieveLoop ms (some "") l = retrieveLoop ms none l := by
  induction l with
  | nil => rfl
  | cons i rest ih =>
    by_cases h : (ms.length : Int) ≤ i
    · simp only [retrieveLoop, if_pos h, ih]
    · simp only [retrieveLoop, if_neg h]
      cases pyGet ms i with
      | none => rfl
      | some m => simp [sfSkip, ih]

/-- Every record the filtered retrieval loop keeps carries exactly the
requested session id, provided the filter string is non-empty. -/
theorem retrieveLoop_session (ms : List Record) (f : String) (hf : f ≠ "") :
    ∀ (l : List Int) (rs : List Record),
      retrieveLoop ms (some f) l = some rs → ∀ m ∈ rs, m.session_id = some f := by
  intro l
  induction l with
  | nil =>
    intro rs h
    simp only [retrieveLoop, Option.some.injEq] at h
    subst h
    simp
  | cons i rest ih =>
    intro rs h
    simp only [retrieveLoop] at h
    by_cases hlen : (ms.length : Int) ≤ i
    · rw [if_pos hlen] at h
      exact ih rs h
    · rw [if_neg hlen] at h
      cases hg : pyGet ms i with
      | none => rw [hg] at h; cases h
      | some m =>
        rw [hg] at h
        simp only [Option.some_bind] at h
        by_cases hskip : sfSkip (some f) m
        · rw [if_pos hskip] at h
          exact ih rs h
        · rw [if_neg hskip] at h
          cases hr : retrieveLoop ms (some f) rest with
          | none => rw [hr] at h; cases h
          | some rs0 =>
            rw [hr] at h
            simp only [Option.map_some', Option.some.injEq] at h
            subst h
            intro x hx
            rcases List.mem_cons.mp hx with hx | hx
            · subst hx
              simp only [sfSkip, if_neg hf] at hskip
              simpa using hskip
            · exact ih rs0 hr x hx

/-- C9: an empty-string session filter disables the session check
entirely: `retrieve` with `session_filter = ""` behaves exactly like
`retrieve` with no session filter, because the guard
`if session_filter and ...` is falsy on the empty string. -/
theorem claim_C9_empty_filter_disables (s : State) (emb : Option Vec) (k : Nat) :
    retrieve s emb k (some "") = retrieve s emb k none := by
  unfold retrieve
  cases s.index with
  | none => rfl
  | some idx =>
    by_cases hv : idx.vecs.isEmpty
    · simp [hv]
    · cases emb with
      | none => simp [hv]
      | some q =>
        cases hfs : faissSearch idx q k with
        | none => simp [hv, hfs]
        | some hits => simp [hv, hfs, retrieveLoop_some_empty]

/-- C3 (amended): an embedding-provider failure during `add` propagates
as `EmbeddingFailed` before any mutation, but during `retrieve` the
failure is caught by the surrounding `except` block and the call returns
the empty list normally instead of surfacing an error (the store is
likewise left unchanged, `retrieve` being read-only). -/
theorem claim_C3_embedding_failure (s : State) (it : Item) (now : String) (k : Nat)
    (sf : Option String) :
    add s it none now = .error .embeddingFailed ∧ retrieve s none k sf = .ok [] := by
  refine ⟨rfl, ?_⟩
  unfold retrieve
  cases s.index with
  | none => rfl
  | some idx => by_cases hv : idx.vecs.isEmpty <;> simp [hv]

/-- C3 counterexample: on a store holding one record, `retrieve` with a
failing embedding provider returns a normal empty result, not an error —
the failure does not propagate to the caller as the claim states. -/
theorem claim_C3_cex : retrieve ex1 none 3 none = .ok [] ∧ ex1.metadata.length = 1 := by
  exact ⟨by decide, by decide⟩

/-- C2 (amended): inserting a text that is byte-for-byte equal to an
already-stored record's text is a silent no-op: `add_with_embedding`
returns normally with the state completely unchanged (no vector, no
metadata, no cache update, no persistence write), and `add` likewise
returns normally with index, metadata and cache unchanged — but `add`
still runs its own trailing `_save_index()`, a redundant rewrite of the
unchanged state. -/
theorem claim_C2_insert_dedup (s : State) (text : String) (emb : Vec) (md : Record)
    (now : String) (hdup : s.metadata.any (fun m => m.text == text) = true) :
    addWithEmbedding s text emb md now = .ok s ∧
    ∀ it : Item, it.text = text → ∀ (embv : Vec) (now2 : String),
      add s it (some embv) now2 = .ok (saveIndex s) ∧
      (saveIndex s).index = s.index ∧ (saveIndex s).metadata = s.metadata ∧
      (saveIndex s).url_cache = s.url_cache := by
  have h1 : ∀ (e : Vec) (m : Record) (n : String), addWithEmbedding s text e m n = .ok s := by
    intro e m n
    unfold addWithEmbedding
    simp [hdup]
  refine ⟨h1 emb md now, ?_⟩
  intro it hit embv now2
  have h2 : addWithEmbedding s it.text embv it.toRecord now2 = .ok s := by
    rw [hit]; exact h1 embv it.toRecord now2
  refine ⟨?_, (saveIndex_memory s).1, (saveIndex_memory s).2.1, (saveIndex_memory s).2.2⟩
  unfold add
  dsimp only
  rw [h2]

/-- C2 witness: a concrete duplicate insertion on the one-record store. -/
theorem claim_C2_insert_dedup_witness :
    addWithEmbedding ex1 "a" [5, 5] { text := "zz" } "t9" = .ok ex1 :=
  (claim_C2_insert_dedup ex1 "a" [5, 5] { text := "zz" } "t9" (by decide)).1

/-- C2 counterexample: on the one-record store, a duplicate `add` does
trigger a persistence write — the write counter grows by one (the trailing
`_save_index()` of `add` runs even on the dedup-skip path), refuting the
claim that no persistence write is triggered. -/
theorem claim_C2_cex :
    add ex1 itemA (some [1, 0]) "t9" = .ok (saveIndex ex1) ∧
    (saveIndex ex1).writes = ex1.writes + 1 ∧
    (saveIndex ex1).metadata = ex1.metadata ∧
    m1 ∈ ex1.metadata ∧ m1.text = itemA.text := by
  exact ⟨by decide, by decide, by decide, by decide, by decide⟩

/-- C6 (amended): for every non-empty session filter `S`, `retrieve`
never returns a record whose `session_id` differs from `S`, and the call
always returns normally (an empty result rather than an error when
nothing matches).  The empty-string filter is excluded: it disables
filtering altogether. -/
theorem claim_C6_session_filter (s : State) (emb : Option Vec) (k : Nat) (f : String)
    (hf : f ≠ "") (rs : List Record) (hr : retrieve s emb k (some f) = .ok rs) :
    (∃ rs0, retrieve s emb k (some f) = .ok rs0) ∧ ∀ m ∈ rs, m.session_id = some f := by
  refine ⟨⟨rs, hr⟩, ?_⟩
  unfold retrieve at hr
  cases hidx : s.index with
  | none =>
    rw [hidx] at hr
    injection hr with hr
    subst hr
    simp
  | some idx =>
    rw [hidx] at hr
    dsimp only at hr
    by_cases hv : idx.vecs.isEmpty
    · rw [if_pos hv] at hr
      injection hr with hr
      subst hr
      simp
    · rw [if_neg hv] at hr
      cases emb with
      | none =>
        injection hr with hr
        subst hr
        simp
      | some q =>
        dsimp only at hr
        cases hfs : faissSearch idx q k with
        | none =>
          rw [hfs] at hr
          injection hr with hr
          subst hr
          simp
        | some hits =>
          rw [hfs] at hr
          dsimp only at hr
          cases hl : retrieveLoop s.metadata (some f) (hits.map Prod.snd) with
          | none =>
            rw [hl] at hr
            injection hr with hr
            subst hr
            simp
          | some rs1 =>
            rw [hl] at hr
            injection hr with hr
            subst hr
            exact retrieveLoop_session s.metadata f hf _ rs1 hl

/-- C6 witness: a concrete filtered retrieval on the one-record store. -/
theorem claim_C6_session_filter_witness :
    (∃ rs0, retrieve ex1 (some [1, 0]) 1 (some "sx") = .ok rs0) ∧
    ∀ m ∈ [m1], m.session_id = some "sx" :=
  claim_C6_session_filter ex1 (some [1, 0]) 1 "sx" (by decide) [m1] (by decide)

/-- C6 counterexample: with the (degenerate) session filter `S = ""`, the
filter is falsy in Python and is not applied, so `retrieve` returns a
record whose `session_id` (`"sx"`) differs from `S` — refuting the claim
for that choice of `S`. -/
theorem claim_C6_cex :
    retrieve ex1 (some [1, 0]) 1 (some "") = .ok [m1] ∧ m1.session_id ≠ some "" := by
  exact ⟨by decide, by decide⟩

/-- C5: evaluation at the failing input.  The store holds two vectors and
two records; a query with `k = 3` makes FAISS pad its result with label
`-1`, the guard `idx >= len(self.metadata)` does not skip `-1`, and
Python's `metadata[-1]` yields the last record again: `retrieve` returns
three results, duplicating the last record, instead of exactly the two
stored records.  (`search_by_embedding` masks the same padding only via
its seen-texts dedup, returning two results.) -/
theorem claim_C5_out_of_range_bug :
    retrieve ex2 (some [1, 0]) 3 none = .ok [m1, m2, m2] ∧
    ex2.metadata.length = 2 ∧ (searchByEmbedding ex2 [1, 0] 3).length = 2 := by
  exact ⟨by decide, by decide, by rfl⟩

/-- The collection loop of `search_by_embedding` only keeps texts that
are not in `seen_texts`, so its output pairs have fresh, pairwise
distinct texts. -/
theorem sbeLoop_fresh (ms : List Record) :
    ∀ (hits : List (Int × Int)) (seen : List String) (prs : List (String × SearchResult)),
      sbeLoop ms hits seen = some prs →
      (∀ p ∈ prs, p.1 ∉ seen) ∧ prs.Pairwise (fun a b => a.1 ≠ b.1) := by
  intro hits
  induction hits with
  | nil =>
    intro seen prs h
    simp only [sbeLoop, Option.some.injEq] at h
    subst h
    exact ⟨by simp, List.Pairwise.nil⟩
  | cons hit rest ih =>
    intro seen prs h
    obtain ⟨d, i⟩ := hit
    simp only [sbeLoop] at h
    by_cases hlt : i < (ms.length : Int)
    · rw [if_pos hlt] at h
      cases hg : pyGet ms i with
      | none => rw [hg] at h; cases h
      | some m =>
        rw [hg] at h
        simp only [Option.some_bind] at h
        by_cases hseen : m.text ∈ seen
        · rw [if_pos hseen] at h
          exact ih seen prs h
        · rw [if_neg hseen] at h
          cases hr : sbeLoop ms rest (m.text :: seen) with
          | none => rw [hr] at h; cases h
          | some rs0 =>
            rw [hr] at h
            simp only [Option.map_some', Option.some.injEq] at h
            subst h
            obtain ⟨hfresh, hpw⟩ := ih (m.text :: seen) rs0 hr
            constructor
            · intro p hp
              rcases List.mem_cons.mp hp with rfl | hp
              · exact hseen
              · intro hcon
                exact hfresh p hp (List.mem_cons_of_mem _ hcon)
            · refine List.Pairwise.cons ?_ hpw
              intro p hp
              have hq := hfresh p hp
              simp only [List.mem_cons, not_or] at hq
              exact fun hEq => hq.1 hEq.symm
    · rw [if_neg hlt] at h
      exact ih seen prs h

/-- Every pair the loop of `search_by_embedding` emits comes from an
actual search hit and the record obtained by (Python) indexing the
metadata list with its label, packaged through `mkResult`. -/
theorem sbeLoop_member (ms : List Record) :
    ∀ (hits : List (Int × Int)) (seen : List String) (prs : List (String × SearchResult)),
      sbeLoop ms hits seen = some prs →
      ∀ p ∈ prs, ∃ d i m, (d, i) ∈ hits ∧ pyGet ms i = some m ∧
        p = (m.text, mkResult m d i) := by
  intro hits
  induction hits with
  | nil =>
    intro seen prs h
    simp only [sbeLoop, Option.some.injEq] at h
    subst h
    simp
  | cons hit rest ih =>
    intro seen prs h
    obtain ⟨d, i⟩ := hit
    simp only [sbeLoop] at h
    by_cases hlt : i < (ms.length : Int)
    · rw [if_pos hlt] at h
      cases hg : pyGet ms i with
      | none => rw [hg] at h; cases h
      | some m =>
        rw [hg] at h
        simp only [Option.some_bind] at h
        by_cases hseen : m.text ∈ seen
        · rw [if_pos hseen] at h
          intro p hp
          obtain ⟨d1, i1, m1, hmem, hpg, hpe⟩ := ih seen prs h p hp
          exact ⟨d1, i1, m1, List.mem_cons_of_mem _ hmem, hpg, hpe⟩
        · rw [if_neg hseen] at h
          cases hr : sbeLoop ms rest (m.text :: seen) with
          | none => rw [hr] at h; cases h
          | some rs0 =>
            rw [hr] at h
            simp only [Option.map_some', Option.some.injEq] at h
            subst h
            intro p hp
            rcases List.mem_cons.mp hp with rfl | hp
            · exact ⟨d, i, m, List.mem_cons_self _ _, hg, rfl⟩
            · obtain ⟨d1, i1, m1, hmem, hpg, hpe⟩ := ih (m.text :: seen) rs0 hr p hp
              exact ⟨d1, i1, m1, List.mem_cons_of_mem _ hmem, hpg, hpe⟩
    · rw [if_neg hlt] at h
      intro p hp
      obtain ⟨d1, i1, m1, hmem, hpg, hpe⟩ := ih seen prs h p hp
      exact ⟨d1, i1, m1, List.mem_cons_of_mem _ hmem, hpg, hpe⟩

/-- Nothing is dropped outright by the loop of `search_by_embedding`:
the text of every in-range hit's record ends up either in `seen_texts`
already or among the texts of the returned pairs. -/
theorem sbeLoop_complete (ms : List Record) :
    ∀ (hits : List (Int × Int)) (seen : List String) (prs : List (String × SearchResult)),
      sbeLoop ms hits seen = some prs →
      ∀ d i, (d, i) ∈ hits → i < (ms.length : Int) →
        ∀ m, pyGet ms i = some m → m.text ∈ seen ∨ m.text ∈ prs.map Prod.fst := by
  intro hits
  induction hits with
  | nil =>
    intro seen prs h d i hmem
    exact absurd hmem (List.not_mem_nil _)
  | cons hit rest ih =>
    intro seen prs h d i hmem hlt m hm
    obtain ⟨d0, i0⟩ := hit
    simp only [sbeLoop] at h
    by_cases hlt0 : i0 < (ms.length : Int)
    · rw [if_pos hlt0] at h
      cases hg : pyGet ms i0 with
      | none => rw [hg] at h; cases h
      | some m0 =>
        rw [hg] at h
        simp only [Option.some_bind] at h
        by_cases hseen : m0.text ∈ seen
        · rw [if_pos hseen] at h
          rcases List.mem_cons.mp hmem with heq | hmem2
          · injection heq with hd hi
            subst hd
            subst hi
            rw [hm] at hg
            injection hg with hg
            subst hg
            exact Or.inl hseen
          · exact ih seen prs h d i hmem2 hlt m hm
        · rw [if_neg hseen] at h
          cases hr : sbeLoop ms rest (m0.text :: seen) with
          | none => rw [hr] at h; cases h
          | some rs0 =>
            rw [hr] at h
            simp only [Option.map_some', Option.some.injEq] at h
            subst h
            rcases List.mem_cons.mp hmem with heq | hmem2
            · injection heq with hd hi
              subst hd
              subst hi
              rw [hm] at hg
              injection hg with hg
              subst hg
              exact Or.inr (by simp)
            · rcases ih (m0.text :: seen) rs0 hr d i hmem2 hlt m hm with hin | hin
              · rcases List.mem_cons.mp hin with heq2 | hin2
                · exact Or.inr (by simp [heq2])
                · exact Or.inl hin2
              · exact Or.inr (by simp [hin])
    · rw [if_neg hlt0] at h
      rcases List.mem_cons.mp hmem with heq | hmem2
      · injection heq with hd hi
        subst hi
        exact absurd hlt hlt0
      · exact ih seen prs h d i hmem2 hlt m hm

/-- C4 (amended): `search_by_embedding` deduplicates result texts.  For
the (text, result) pair list `prs` that its own collection loop builds,
the function's answer is exactly `prs.map Prod.snd`, every pair carries
the genuine text of the record of an actual search hit, those texts are
pairwise distinct (identical-text records are deduplicated), and the
text of every in-range hit's record is represented — so exactly one
occurrence per text is kept.  (`retrieve` performs no such dedup, and
when `k` exceeds the store size it returns the last record twice; see
the counterexample.) -/
theorem claim_C4_result_text_dedup (s : State) (v : Vec) (k : Nat)
    (idx : VectorIndex) (hits : List (Int × Int)) (prs : List (String × SearchResult))
    (hidx : s.index = some idx) (hne : idx.vecs.isEmpty = false)
    (hfs : faissSearch idx v k = some hits)
    (hl : sbeLoop s.metadata hits [] = some prs) :
    searchByEmbedding s v k = prs.map Prod.snd ∧
    prs.Pairwise (fun a b => a.1 ≠ b.1) ∧
    (∀ p ∈ prs, ∃ d i m, (d, i) ∈ hits ∧ pyGet s.metadata i = some m ∧
      p = (m.text, mkResult m d i)) ∧
    (∀ d i, (d, i) ∈ hits → i < (s.metadata.length : Int) →
      ∀ m, pyGet s.metadata i = some m → m.text ∈ prs.map Prod.fst) := by
  refine ⟨?_, (sbeLoop_fresh s.metadata hits [] prs hl).2,
    sbeLoop_member s.metadata hits [] prs hl, ?_⟩
  · unfold searchByEmbedding
    rw [hidx]
    dsimp only
    rw [if_neg (by simp [hne])]
    rw [hfs]
    dsimp only
    rw [hl]
  · intro d i hmem hlt m hm
    rcases sbeLoop_complete s.metadata hits [] prs hl d i hmem hlt m hm with hin | hin
    · exact absurd hin (List.not_mem_nil _)
    · exact hin

/-- C4 witness: the dedup facts instantiated on the concrete two-record
store with `k = 3`, where the padded `-1` hit resolves to the last
record and is dropped as a duplicate text. -/
theorem claim_C4_result_text_dedup_witness :
    searchByEmbedding ex2 [1, 0] 3 =
      ([(m1.text, mkResult m1 0 0), (m2.text, mkResult m2 2 1)] :
        List (String × SearchResult)).map Prod.snd ∧
    ([(m1.text, mkResult m1 0 0), (m2.text, mkResult m2 2 1)] :
      List (String × SearchResult)).Pairwise (fun a b => a.1 ≠ b.1) ∧
    (∀ p ∈ ([(m1.text, mkResult m1 0 0), (m2.text, mkResult m2 2 1)] :
        List (String × SearchResult)), ∃ d i m,
      (d, i) ∈ ([(0, 0), (2, 1), (padDist, -1)] : List (Int × Int)) ∧
      pyGet ex2.metadata i = some m ∧ p = (m.text, mkResult m d i)) ∧
    (∀ d i, (d, i) ∈ ([(0, 0), (2, 1), (padDist, -1)] : List (Int × Int)) →
      i < (ex2.metadata.length : Int) → ∀ m, pyGet ex2.metadata i = some m →
      m.text ∈ ([(m1.text, mkResult m1 0 0), (m2.text, mkResult m2 2 1)] :
        List (String × SearchResult)).map Prod.fst) :=
  claim_C4_result_text_dedup ex2 [1, 0] 3 vi2
    ([(0, 0), (2, 1), (padDist, -1)] : List (Int × Int))
    [(m1.text, mkResult m1 0 0), (m2.text, mkResult m2 2 1)]
    rfl rfl rfl rfl

/-- C10: `search_by_embedding` is total at its interface: it returns a
plain list on every input (the source catches every internal exception),
the answer on an absent or empty index is `[]`, and every returned result
stems from an actual search hit with similarity score `1 / (1 + dist)`. -/
theorem claim_C10_sbe_total (s : State) (v : Vec) (k : Nat) :
    (s.index = none → searchByEmbedding s v k = []) ∧
    (∀ idx, s.index = some idx → idx.vecs = [] → searchByEmbedding s v k = []) ∧
    (∀ r ∈ searchByEmbedding s v k, ∃ idx hits d i m,
      s.index = some idx ∧ faissSearch idx v k = some hits ∧ (d, i) ∈ hits ∧
      pyGet s.metadata i = some m ∧ r = mkResult m d i ∧ r.score = 1 / (1 + (d : ℚ))) := by
  refine ⟨?_, ?_, ?_⟩
  · intro h
    unfold searchByEmbedding
    rw [h]
  · intro idx h hnil
    unfold searchByEmbedding
    rw [h]
    simp [hnil]
  · intro r hr
    unfold searchByEmbedding at hr
    cases hidx : s.index with
    | none => rw [hidx] at hr; cases hr
    | some idx =>
      rw [hidx] at hr
      dsimp only at hr
      by_cases hv : idx.vecs.isEmpty
      · rw [if_pos hv] at hr; cases hr
      · rw [if_neg hv] at hr
        cases hfs : faissSearch idx v k with
        | none => rw [hfs] at hr; cases hr
        | some hits =>
          rw [hfs] at hr
          dsimp only at hr
          cases hl : sbeLoop s.metadata hits [] with
          | none => rw [hl] at hr; cases hr
          | some prs =>
            rw [hl] at hr
            dsimp only at hr
            obtain ⟨p, hp, hpr⟩ := List.mem_map.mp hr
            obtain ⟨d, i, m, hmem, hpg, hpe⟩ :=
              sbeLoop_member s.metadata hits [] prs hl p hp
            refine ⟨idx, hits, d, i, m, rfl, hfs, hmem, hpg, ?_, ?_⟩
            · rw [← hpr, hpe]
            · rw [← hpr, hpe]
              rfl

/-- C10 witness: on a state with no index at all, the search returns the
empty list. -/
theorem claim_C10_sbe_total_witness : searchByEmbedding exNoIdx [1] 2 = [] :=
  (claim_C10_sbe_total exNoIdx [1] 2).1 rfl

/-- Membership in the accumulated unique-URL list: a URL occurs exactly
when it was already in the accumulator or is carried by some record. -/
theorem uniqueUrlsAux_mem (ms : List Record) :
    ∀ (acc : List String) (u : String),
      u ∈ uniqueUrlsAux ms acc ↔ u ∈ acc ∨ u ∈ ms.filterMap Record.url := by
  induction ms with
  | nil =>
    intro acc u
    simp [uniqueUrlsAux]
  | cons m rest ih =>
    intro acc u
    cases hu : m.url with
    | none =>
      simp only [uniqueUrlsAux, hu, ih, List.filterMap_cons_none hu]
    | some u0 =>
      by_cases hin : u0 ∈ acc
      · simp only [uniqueUrlsAux, hu, if_pos hin, ih, List.filterMap_cons_some hu]
        constructor
        · rintro (h | h)
          · exact Or.inl h
          · exact Or.inr (List.mem_cons_of_mem _ h)
        · rintro (h | h)
          · exact Or.inl h
          · rcases List.mem_cons.mp h with rfl | h
            · exact Or.inl hin
            · exact Or.inr h
      · simp only [uniqueUrlsAux, hu, if_neg hin, ih, List.filterMap_cons_some hu,
          List.mem_append, List.mem_singleton, List.mem_cons]
        tauto

/-- The accumulated unique-URL list stays duplicate-free. -/
theorem uniqueUrlsAux_nodup (ms : List Record) :
    ∀ acc : List String, acc.Nodup → (uniqueUrlsAux ms acc).Nodup := by
  induction ms with
  | nil =>
    intro acc h
    simpa [uniqueUrlsAux] using h
  | cons m rest ih =>
    intro acc h
    cases hu : m.url with
    | none =>
      simp only [uniqueUrlsAux, hu]
      exact ih acc h
    | some u0 =>
      by_cases hin : u0 ∈ acc
      · simp only [uniqueUrlsAux, hu, if_pos hin]
        exact ih acc h
      · simp only [uniqueUrlsAux, hu, if_neg hin]
        refine ih _ ?_
        rw [List.nodup_append]
        exact ⟨h, List.nodup_singleton u0, by simpa [List.disjoint_singleton] using hin⟩

/-- The loop of `get_stats` counts exactly the distinct URL values among
the stored records. -/
theorem uniqueUrls_length (ms : List Record) :
    (uniqueUrlsAux ms []).length = (ms.filterMap Record.url).dedup.length := by
  have h1 : (uniqueUrlsAux ms []).Nodup := uniqueUrlsAux_nodup ms [] List.nodup_nil
  have h2 : (ms.filterMap Record.url).dedup.Nodup := List.nodup_dedup _
  have h3 : (uniqueUrlsAux ms []).toFinset = (ms.filterMap Record.url).dedup.toFinset := by
    ext u
    simp [List.mem_toFinset, List.mem_dedup, uniqueUrlsAux_mem]
  calc (uniqueUrlsAux ms []).length
      = (uniqueUrlsAux ms []).toFinset.card := (List.toFinset_card_of_nodup h1).symm
    _ = (ms.filterMap Record.url).dedup.toFinset.card := by rw [h3]
    _ = (ms.filterMap Record.url).dedup.length := List.toFinset_card_of_nodup h2

/-- C8: after every successful `clear()` the statistics report zero
records, zero distinct URLs and a zero-sized index file; and in general
`get_stats()` reports the number of distinct `url` values among the
stored records, the record count, and the size of the persisted index
file (0 when that file is absent). -/
theorem claim_C8_clear_resets_stats :
    (∀ (s : State) (probe : Option Vec) (s1 : State), clear s probe = .ok s1 →
      getStats s1 = { indexed_urls := 0, total_chunks := 0, index_size := 0 }) ∧
    (∀ t : State, getStats t =
      { indexed_urls := (t.metadata.filterMap Record.url).dedup.length
        total_chunks := t.metadata.length
        index_size := (t.files.indexF.map fileSize).getD 0 }) := by
  constructor
  · intro s probe s1 h
    unfold clear at h
    cases probe with
    | none => cases h
    | some v =>
      injection h with h
      subst h
      rfl
  · intro t
    unfold getStats
    simp only [Stats.mk.injEq]
    refine ⟨uniqueUrls_length t.metadata, trivial, ?_⟩
    cases t.files.indexF <;> rfl

/-- C8 witness: the statistics of the concrete post-`clear` state. -/
theorem claim_C8_clear_resets_stats_witness :
    getStats exC = { indexed_urls := 0, total_chunks := 0, index_size := 0 } :=
  claim_C8_clear_resets_stats.1 ex1 (some [0, 0]) exC (by decide)

/-- The empty metadata list is trivially index-aligned. -/
theorem alignedRecords_nil : AlignedRecords [] := by
  intro i hi
  exact absurd hi (by simp)

/-- Appending a record whose `"index"` field equals the current length
preserves index alignment. -/
theorem alignedRecords_snoc (ms : List Record) (hal : AlignedRecords ms) (r : Record)
    (hr : r.idx = ms.length) : AlignedRecords (ms ++ [r]) := by
  intro i hi
  rw [List.length_append, List.length_singleton] at hi
  by_cases hlt : i < ms.length
  · rw [List.getElem_append_left hlt]
    exact hal i hlt
  · have hieq : i = ms.length := by omega
    subst hieq
    rw [List.getElem_concat_length ms r ms.length rfl]
    exact hr

/-- A freshly constructed store satisfies the store invariant. -/
theorem inv_initState (probe : Vec) : Inv (initState probe) := by
  refine ⟨{ dim := probe.length, vecs := [] }, rfl, rfl, alignedRecords_nil, ?_, ?_, ?_⟩
  · intro fidx hf
    cases hf
  · intro hc
    exact absurd rfl hc
  · intro _
    exact ⟨rfl, rfl⟩

/-- `_save_index` on a non-empty, memory-aligned store establishes the
full invariant: the files it writes are the in-memory structures. -/
theorem inv_save_nonempty {s : State} (idx : VectorIndex) (hidx : s.index = some idx)
    (hne : idx.vecs ≠ []) (hlen : idx.vecs.length = s.metadata.length)
    (hal : AlignedRecords s.metadata) : Inv (saveIndex s) := by
  have hv : idx.vecs.isEmpty = false := by
    cases hl : idx.vecs with
    | nil => exact absurd hl hne
    | cons a l => rfl
  unfold saveIndex
  rw [hidx]
  dsimp only
  rw [if_neg (by simp [hv])]
  refine ⟨idx, rfl, hlen, hal, ?_, fun _ => rfl, fun hc => absurd hc hne⟩
  intro fidx hfidx
  injection hfidx with h2
  subst h2
  exact ⟨s.metadata, s.url_cache, rfl, rfl, hlen, hal, hne⟩

/-- `_save_index` preserves the store invariant. -/
theorem inv_saveIndex {s : State} (h : Inv s) : Inv (saveIndex s) := by
  obtain ⟨idx, hidx, hlen, hal, hfa, hsync, hempty⟩ := h
  by_cases hne : idx.vecs = []
  · have hsv : saveIndex s = s := by
      unfold saveIndex
      rw [hidx]
      dsimp only
      rw [if_pos (by rw [hne]; rfl)]
    rw [hsv]
    exact ⟨idx, hidx, hlen, hal, hfa, hsync, hempty⟩
  · exact inv_save_nonempty idx hidx hne hlen hal

/-- A successful `add_with_embedding` preserves the store invariant. -/
theorem inv_addWithEmbedding {s s1 : State} {text : String} {emb : Vec} {md : Record}
    {now : String} (h : addWithEmbedding s text emb md now = .ok s1) (hInv : Inv s) :
    Inv s1 := by
  obtain ⟨idx, hidx, hlen, hal, hfa, hsync, hempty⟩ := hInv
  unfold addWithEmbedding at h
  by_cases hdup : s.metadata.any (fun m => m.text == text) = true
  · rw [if_pos hdup] at h
    injection h with h
    subst h
    exact ⟨idx, hidx, hlen, hal, hfa, hsync, hempty⟩
  · rw [if_neg hdup] at h
    rw [hidx] at h
    dsimp only at h
    by_cases hdim : emb.length = idx.dim
    · rw [if_pos hdim] at h
      injection h with h
      subst h
      refine inv_save_nonempty { idx with vecs := idx.vecs ++ [emb] } rfl
        (by simp) ?_ ?_
      · simp [hlen]
      · exact alignedRecords_snoc s.metadata hal _ rfl
    · rw [if_neg hdim] at h
      cases h

/-- A successful `add` preserves the store invariant. -/
theorem inv_add {s s1 : State} {it : Item} {emb : Vec} {now : String}
    (h : add s it (some emb) now = .ok s1) (hInv : Inv s) : Inv s1 := by
  unfold add at h
  dsimp only at h
  cases hw : addWithEmbedding s it.text emb it.toRecord now with
  | error e => rw [hw] at h; cases h
  | ok s2 =>
    rw [hw] at h
    dsimp only at h
    injection h with h
    subst h
    exact inv_saveIndex (inv_addWithEmbedding hw hInv)

/-- A successful `clear` establishes the store invariant from scratch. -/
theorem inv_clear {s s1 : State} {probe : Option Vec} (h : clear s probe = .ok s1) :
    Inv s1 := by
  unfold clear at h
  cases probe with
  | none => cases h
  | some v =>
    injection h with h
    subst h
    refine ⟨{ dim := v.length, vecs := [] }, rfl, rfl, alignedRecords_nil, ?_, ?_, ?_⟩
    · intro fidx hfidx
      cases hfidx
    · intro hc
      exact absurd rfl hc
    · intro _
      exact ⟨rfl, rfl⟩

/-- A successful `_load_or_create_index` preserves the store invariant. -/
theorem inv_load {s s1 : State} {probe : Option Vec} (h : load s probe = .ok s1)
    (hInv : Inv s) : Inv s1 := by
  obtain ⟨idx, hidx, hlen, hal, hfa, hsync, hempty⟩ := hInv
  unfold load at h
  cases hif : s.files.indexF with
  | some fidx =>
    obtain ⟨fms, c, hmf, hcf, hflen, hfal, hfne⟩ := hfa fidx hif
    rw [hif, hmf] at h
    dsimp only at h
    rw [hcf] at h
    dsimp only at h
    injection h with h
    subst h
    refine ⟨fidx, rfl, hflen, hfal, ?_, ?_, ?_⟩
    · intro fidx2 hf2
      exact hfa fidx2 hf2
    · intro _
      rw [← hif, ← hmf, ← hcf]
    · intro hc
      exact absurd hc hfne
  | none =>
    rw [hif] at h
    dsimp only at h
    cases probe with
    | none => cases h
    | some v =>
      injection h with h
      subst h
      refine ⟨{ dim := v.length, vecs := [] }, rfl, rfl, alignedRecords_nil, ?_, ?_, ?_⟩
      · intro fidx2 hf2
        rw [hif] at hf2
        cases hf2
      · intro hc
        exact absurd rfl hc
      · intro _
        exact ⟨hif, rfl⟩

/-- Every reachable store satisfies the full store invariant. -/
theorem reachable_inv {s : State} (h : Reachable s) : Inv s := by
  induction h with
  | init probe => exact inv_initState probe
  | addOk it emb now hrec hstep ih => exact inv_add hstep ih
  | addWithOk text emb md now hrec hstep ih => exact inv_addWithEmbedding hstep ih
  | clearOk probe hrec hstep ih => exact inv_clear hstep
  | loadOk probe hrec hstep ih => exact inv_load hstep ih

/-- C1: on every store reachable by successful public operations, the
vector index and the metadata list have the same length and every
record's `"index"` field equals its position; moreover every successful
non-duplicate insertion appends the given embedding to the index and the
metadata record (stamped with the fresh position) to the metadata list in
the same step, so the record at position `i` sits beside its embedding at
position `i`. -/
theorem claim_C1_index_alignment :
    (∀ s : State, Reachable s → ∃ idx, s.index = some idx ∧
      idx.vecs.length = s.metadata.length ∧ AlignedRecords s.metadata) ∧
    (∀ (s : State) (text : String) (emb : Vec) (md : Record) (now : String) (s1 : State),
      addWithEmbedding s text emb md now = .ok s1 →
      s1 = s ∨ ∃ idx idx1, s.index = some idx ∧ s1.index = some idx1 ∧
        idx1.vecs = idx.vecs ++ [emb] ∧
        s1.metadata = s.metadata ++ [{ md with text := text, idx := s.metadata.length }]) := by
  constructor
  · intro s hs
    obtain ⟨idx, hidx, hlen, hal, _, _, _⟩ := reachable_inv hs
    exact ⟨idx, hidx, hlen, hal⟩
  · intro s text emb md now s1 h
    unfold addWithEmbedding at h
    by_cases hdup : s.metadata.any (fun m => m.text == text) = true
    · rw [if_pos hdup] at h
      injection h with h
      exact Or.inl h.symm
    · rw [if_neg hdup] at h
      cases hidx : s.index with
      | none => rw [hidx] at h; cases h
      | some idx =>
        rw [hidx] at h
        dsimp only at h
        by_cases hdim : emb.length = idx.dim
        · rw [if_pos hdim] at h
          injection h with h
          subst h
          refine Or.inr ⟨idx, { idx with vecs := idx.vecs ++ [emb] }, rfl, ?_, rfl, ?_⟩
          · exact (saveIndex_memory _).1
          · exact (saveIndex_memory _).2.1
        · rw [if_neg hdim] at h
          cases h

/-- C1 witness: the two-record store reached by two `add`s is aligned. -/
theorem claim_C1_index_alignment_witness :
    ∃ idx, ex2.index = some idx ∧ idx.vecs.length = ex2.metadata.length ∧
      AlignedRecords ex2.metadata :=
  claim_C1_index_alignment.1 ex2 reach_ex2

/-- `retrieve` depends only on the in-memory index and metadata: two
states agreeing on those answer every query identically. -/
theorem retrieve_eq_of_memory {s t : State} (hidx : s.index = t.index)
    (hms : s.metadata = t.metadata) (emb : Option Vec) (k : Nat) (sf : Option String) :
    retrieve s emb k sf = retrieve t emb k sf := by
  unfold retrieve
  rw [hidx, hms]

/-- `search_by_embedding` likewise depends only on the index and the
metadata. -/
theorem sbe_eq_of_memory {s t : State} (hidx : s.index = t.index)
    (hms : s.metadata = t.metadata) (v : Vec) (k : Nat) :
    searchByEmbedding s v k = searchByEmbedding t v k := by
  unfold searchByEmbedding
  rw [hidx, hms]

/-- On a store whose index holds no vectors, `retrieve` answers `[]`. -/
theorem retrieve_empty {s : State} (idx : VectorIndex) (hidx : s.index = some idx)
    (hne : idx.vecs = []) (emb : Option Vec) (k : Nat) (sf : Option String) :
    retrieve s emb k sf = .ok [] := by
  unfold retrieve
  rw [hidx]
  dsimp only
  rw [if_pos (by rw [hne]; rfl)]

/-- On a store whose index holds no vectors, `search_by_embedding`
answers `[]`. -/
theorem sbe_empty {s : State} (idx : VectorIndex) (hidx : s.index = some idx)
    (hne : idx.vecs = []) (v : Vec) (k : Nat) :
    searchByEmbedding s v k = [] := by
  unfold searchByEmbedding
  rw [hidx]
  dsimp only
  rw [if_pos (by rw [hne]; rfl)]

/-- C7: persistence round-trip.  On every reachable store, running
`_save_index` and then `_load_or_create_index` (when the load succeeds)
yields a store with the same record count that answers every retrieval
and every embedding search identically — in particular the
nearest-neighbour ranking of any fixed query vector is unchanged. -/
theorem claim_C7_round_trip (s s1 : State) (probe : Option Vec) (hs : Reachable s)
    (h : load (saveIndex s) probe = .ok s1) :
    s1.metadata.length = s.metadata.length ∧
    (∀ (emb : Option Vec) (k : Nat) (sf : Option String),
      retrieve s1 emb k sf = retrieve s emb k sf) ∧
    (∀ (v : Vec) (k : Nat), searchByEmbedding s1 v k = searchByEmbedding s v k) := by
  obtain ⟨idx, hidx, hlen, hal, hfa, hsync, hempty⟩ := reachable_inv hs
  by_cases hne : idx.vecs = []
  · have hsv : saveIndex s = s := by
      unfold saveIndex
      rw [hidx]
      dsimp only
      rw [if_pos (by rw [hne]; rfl)]
    rw [hsv] at h
    obtain ⟨hfnone, hmsnil⟩ := hempty hne
    unfold load at h
    rw [hfnone] at h
    dsimp only at h
    cases probe with
    | none => cases h
    | some v =>
      injection h with h
      subst h
      refine ⟨by simp [hmsnil], ?_, ?_⟩
      · intro emb k sf
        rw [retrieve_empty { dim := v.length, vecs := [] } rfl rfl emb k sf,
          retrieve_empty idx hidx hne emb k sf]
      · intro v2 k
        rw [sbe_empty { dim := v.length, vecs := [] } rfl rfl v2 k,
          sbe_empty idx hidx hne v2 k]
  · have hv : idx.vecs.isEmpty = false := by
      cases hl : idx.vecs with
      | nil => exact absurd hl hne
      | cons a l => rfl
    have hsv : saveIndex s =
        { s with
          files := { indexF := some idx, metaF := some s.metadata, cacheF := some s.url_cache }
          writes := s.writes + 1 } := by
      unfold saveIndex
      rw [hidx]
      dsimp only
      rw [if_neg (by simp [hv])]
    rw [hsv] at h
    unfold load at h
    dsimp only at h
    injection h with h
    subst h
    refine ⟨rfl, ?_, ?_⟩
    · intro emb k sf
      refine retrieve_eq_of_memory ?_ ?_ emb k sf
      · exact hidx.symm
      · rfl
    · intro v k
      refine sbe_eq_of_memory ?_ ?_ v k
      · exact hidx.symm
      · rfl

/-- C7 witness: the round trip on the concrete one-record store. -/
theorem claim_C7_round_trip_witness :
    (saveIndex ex1).metadata.length = ex1.metadata.length ∧
    retrieve (saveIndex ex1) (some [9, 9]) 2 none = retrieve ex1 (some [9, 9]) 2 none := by
  have h := claim_C7_round_trip ex1 (saveIndex ex1) none reach_ex1 (by decide)
  exact ⟨h.1, h.2.1 (some [9, 9]) 2 none⟩

/-- C4 counterexample: in the same situation, the result set of
`retrieve` contains two records with identical text (the duplicated last
record), so retrieval result sets are not text-deduplicated for
`retrieve`. -/
theorem claim_C4_cex :
    retrieve ex2 (some [1, 0]) 3 none = .ok [m1, m2, m2] ∧
    ¬ ([m1, m2, m2].map Record.text).Nodup ∧ m1.text ≠ m2.text := by
  exact ⟨by decide, by decide, by decide⟩

end WebMemory
